import Mathlib

/-!
Verification of the alignment-processing engine in
src/phylogeny/process_alignments.py.

Python strings are modelled as Lean String values; the per-character
operations of the source (strip, upper, lower, startswith, split, join)
are translated to explicit functions on the underlying character lists so
that every definition is executable.  Fallible operations (file reads,
parse failures, serializer failures) are modelled with Except.  The
insertion-ordered dictionary used by the source is modelled as a list of
name/sequence pairs together with an insert-or-update operation that
keeps the position of an existing key.
-/

namespace ProcessAlignments

/-- Python str.strip on the character list: drop whitespace from both ends. -/
def stripChars (l : List Char) : List Char :=
  ((l.dropWhile Char.isWhitespace).reverse.dropWhile Char.isWhitespace).reverse

/-- Python str.strip. -/
def pyStrip (s : String) : String :=
  String.mk (stripChars s.data)

/-- Python str.upper (ASCII). -/
def pyUpper (s : String) : String :=
  String.mk (s.data.map Char.toUpper)

/-- Python str.lower (ASCII). -/
def pyLower (s : String) : String :=
  String.mk (s.data.map Char.toLower)

/-- Python s.startswith p. -/
def pyStartsWith (s p : String) : Bool :=
  p.data.isPrefixOf s.data

/-- Split a character list at every character satisfying p, keeping empty pieces
(the semantics of Python str.split with an explicit separator). -/
def splitChars (p : Char → Bool) (l : List Char) : List (List Char) :=
  l.foldr
    (fun c acc =>
      if p c then [] :: acc
      else
        match acc with
        | a :: as => (c :: a) :: as
        | [] => [[c]])
    [[]]

/-- Python content.split with separator a newline. -/
def pySplitLines (s : String) : List String :=
  (splitChars (fun c => c == Char.ofNat 10) s.data).map String.mk

/-- Python str.split with no argument: split on whitespace runs, no empty parts. -/
def pySplit (s : String) : List String :=
  ((splitChars Char.isWhitespace s.data).filter (fun cs => !cs.isEmpty)).map String.mk

/-- Python sep.join for a non-trivial separator. -/
def pyJoin (sep : String) : List String → String
  | [] => ""
  | [x] => x
  | x :: y :: ys => x ++ sep ++ pyJoin sep (y :: ys)

/-- Python "".join. -/
def pyConcat (l : List String) : String :=
  l.foldl (fun a s => a ++ s) ""

/-- Python substring membership test (sub in s) on character lists. -/
def isSubstring : List Char → List Char → Bool
  | sub, [] => sub.isEmpty
  | sub, l@(_ :: rest) => sub.isPrefixOf l || isSubstring sub rest

/-- Insert-or-update into an insertion-ordered association list, keeping the
position of an existing key (the semantics of Python dict assignment). -/
def odInsert (l : List (String × String)) (k v : String) : List (String × String) :=
  match l with
  | [] => [(k, v)]
  | (k', v') :: rest => if k' = k then (k', v) :: rest else (k', v') :: odInsert rest k v

/-- The SPECIAL_CHARS regex character class of AlignmentProcessor, as the set of
characters it matches. -/
def specialChars : List Char :=
  [' ', '(', ')', ':', ';', ',', '[', ']', '/', '+', Char.ofNat 39]

/-- AlignmentProcessor.clean_name: replace every special character by an underscore. -/
def cleanName (name : String) : String :=
  String.mk (name.data.map (fun c => if c ∈ specialChars then '_' else c))

theorem cleanName_data (s : String) :
    (cleanName s).data = s.data.map (fun c => if c ∈ specialChars then '_' else c) := rfl

/-- Claim C5: the name sanitizer is idempotent, its output contains no forbidden
character, and it acts pointwise: each forbidden character becomes an underscore
while every other character passes through unchanged. -/
theorem clean_name_props (s : String) :
    cleanName (cleanName s) = cleanName s
    ∧ (∀ c ∈ (cleanName s).data, c ∉ specialChars)
    ∧ (cleanName s).data = s.data.map (fun c => if c ∈ specialChars then '_' else c) := by
  refine ⟨?_, ?_, rfl⟩
  · have hstep : ∀ c : Char,
        (if (if c ∈ specialChars then '_' else c) ∈ specialChars then '_'
         else (if c ∈ specialChars then '_' else c))
          = (if c ∈ specialChars then '_' else c) := by
      intro c
      by_cases hc : c ∈ specialChars
      · simp only [if_pos hc, ite_self]
      · simp only [if_neg hc]
    show String.mk ((s.data.map _).map _) = String.mk (s.data.map _)
    rw [List.map_map]
    exact congrArg String.mk (List.map_congr_left (fun c _ => hstep c))
  · intro c hc
    rw [cleanName_data, List.mem_map] at hc
    obtain ⟨a, _, ha⟩ := hc
    by_cases h : a ∈ specialChars
    · rw [if_pos h] at ha
      rw [← ha]
      decide
    · rw [if_neg h] at ha
      rw [← ha]
      exact h

/-- Claim C5 witness. -/
theorem clean_name_props_witness :
    cleanName (cleanName "a b(c)") = cleanName "a b(c)" :=
  (clean_name_props "a b(c)").1

/-! ## FASTA parser (AlignmentProcessor.parse_fasta) -/

/-- The loop state of parse_fasta: the ordered mapping built so far, the current
record name (none before the first header), and the accumulated sequence lines. -/
structure FastaState where
  seqs : List (String × String)
  curName : Option String
  curSeq : List String

/-- Python truthiness of the current_name variable (None and the empty string
are both falsy). -/
def truthyName : Option String → Bool
  | none => false
  | some s => !(s == "")

/-- Flush the open record into the mapping, guarded on the truthiness of the
current name, exactly as the source writes sequences[current_name] under
an if current_name guard. -/
def fastaFlush (st : FastaState) : List (String × String) :=
  if truthyName st.curName then odInsert st.seqs (st.curName.getD "") (pyConcat st.curSeq)
  else st.seqs

/-- One line of the parse_fasta loop. -/
def fastaStep (st : FastaState) (rawLine : String) : FastaState :=
  let line := pyStrip rawLine
  if pyStartsWith line ">" then
    ⟨fastaFlush st, some (cleanName (String.mk (line.data.drop 1))), []⟩
  else if line == "" then st
  else ⟨st.seqs, st.curName, st.curSeq ++ [line]⟩

/-- parse_fasta on an explicit list of lines. -/
def parseFastaLines (lines : List String) : List (String × String) :=
  fastaFlush (lines.foldl fastaStep ⟨[], none, []⟩)

/-- AlignmentProcessor.parse_fasta (the error component is always None in the
source, so the result is just the ordered mapping). -/
def parse_fasta (content : String) : List (String × String) :=
  parseFastaLines (pySplitLines content)

theorem fastaStep_header {st : FastaState} {rawLine : String}
    (h : pyStartsWith (pyStrip rawLine) ">" = true) :
    fastaStep st rawLine
      = ⟨fastaFlush st, some (cleanName (String.mk ((pyStrip rawLine).data.drop 1))), []⟩ := by
  unfold fastaStep
  simp only [h, if_pos]

theorem fastaStep_nonheader {st : FastaState} {rawLine : String}
    (h : pyStartsWith (pyStrip rawLine) ">" = false) :
    fastaStep st rawLine
      = if pyStrip rawLine == "" then st
        else ⟨st.seqs, st.curName, st.curSeq ++ [pyStrip rawLine]⟩ := by
  unfold fastaStep
  simp only [h, Bool.false_eq_true, if_false]

/-- Folding non-header lines changes neither the mapping nor the current name. -/
theorem foldl_nonheader (ls : List String) :
    ∀ st : FastaState, (∀ l ∈ ls, pyStartsWith (pyStrip l) ">" = false) →
      (ls.foldl fastaStep st).seqs = st.seqs
      ∧ (ls.foldl fastaStep st).curName = st.curName := by
  induction ls with
  | nil => intro st _; exact ⟨rfl, rfl⟩
  | cons l rest ih =>
    intro st h
    have hl : pyStartsWith (pyStrip l) ">" = false := h l (List.mem_cons_self l rest)
    have hrest : ∀ x ∈ rest, pyStartsWith (pyStrip x) ">" = false :=
      fun x hx => h x (List.mem_cons_of_mem l hx)
    rw [List.foldl_cons, fastaStep_nonheader hl]
    by_cases he : pyStrip l == ""
    · rw [if_pos he]; exact ih st hrest
    · rw [if_neg he]
      obtain ⟨h1, h2⟩ := ih ⟨st.seqs, st.curName, st.curSeq ++ [pyStrip l]⟩ hrest
      exact ⟨h1, h2⟩

/-- After any state whose current name is falsy, the rest of the parse depends
only on the mapping built so far. -/
theorem parse_from_falsy (lines : List String) :
    ∀ st₁ st₂ : FastaState, truthyName st₁.curName = false →
      truthyName st₂.curName = false → st₁.seqs = st₂.seqs →
      fastaFlush (lines.foldl fastaStep st₁) = fastaFlush (lines.foldl fastaStep st₂) := by
  induction lines with
  | nil =>
    intro st₁ st₂ h1 h2 hs
    rw [List.foldl_nil, List.foldl_nil]
    unfold fastaFlush
    rw [h1, h2, hs]
    simp
  | cons l rest ih =>
    intro st₁ st₂ h1 h2 hs
    rw [List.foldl_cons, List.foldl_cons]
    by_cases hl : pyStartsWith (pyStrip l) ">" = true
    · rw [fastaStep_header hl, fastaStep_header hl]
      have hf : fastaFlush st₁ = fastaFlush st₂ := by
        unfold fastaFlush
        rw [h1, h2, hs]
        simp
      rw [hf]
    · have hl' : pyStartsWith (pyStrip l) ">" = false := by
        cases hp : pyStartsWith (pyStrip l) ">"
        · rfl
        · exact absurd hp hl
      rw [fastaStep_nonheader hl', fastaStep_nonheader hl']
      by_cases he : pyStrip l == ""
      · rw [if_pos he, if_pos he]
        exact ih st₁ st₂ h1 h2 hs
      · rw [if_neg he, if_neg he]
        exact ih _ _ h1 h2 hs

/-- Claim C8: a header line whose name sanitizes to the empty string opens a
record that is never emitted; the sequence lines accumulated under it are
silently discarded when the next header or the end of input is reached. -/
theorem parse_fasta_empty_header_discard
    (hdr : String) (ls rest : List String)
    (hhdr : pyStartsWith (pyStrip hdr) ">" = true)
    (hname : cleanName (String.mk ((pyStrip hdr).data.drop 1)) = "")
    (hls : ∀ l ∈ ls, pyStartsWith (pyStrip l) ">" = false) :
    parseFastaLines (hdr :: (ls ++ rest)) = parseFastaLines rest := by
  unfold parseFastaLines
  rw [List.foldl_cons, fastaStep_header hhdr]
  rw [show (ls ++ rest).foldl fastaStep _ = rest.foldl fastaStep
        ((ls.foldl fastaStep ⟨fastaFlush ⟨[], none, []⟩,
          some (cleanName (String.mk ((pyStrip hdr).data.drop 1))), []⟩)) from
    List.foldl_append _ _ _ _]
  obtain ⟨hseqs, hcur⟩ := foldl_nonheader ls
    ⟨fastaFlush ⟨[], none, []⟩, some (cleanName (String.mk ((pyStrip hdr).data.drop 1))), []⟩ hls
  apply parse_from_falsy
  · rw [hcur, hname]
    rfl
  · rfl
  · rw [hseqs]
    rfl

/-- Claim C8 witness: the sequence lines under a bare header are dropped. -/
theorem parse_fasta_empty_header_discard_witness :
    parseFastaLines (">" :: (["AAAA"] ++ [">b", "CCCC"])) = parseFastaLines [">b", "CCCC"] :=
  parse_fasta_empty_header_discard ">" ["AAAA"] [">b", "CCCC"]
    (by decide) (by decide) (by decide)

/-! ## Deduplicator (AlignmentProcessor.remove_duplicate_sequences) -/

/-- The loop of remove_duplicate_sequences, with the seen-set threaded through. -/
def rdAux : List (String × String) → List String → List (String × String) × List String
  | [], _ => ([], [])
  | x :: rest, seen =>
    if x.2 ∈ seen then
      ((rdAux rest seen).1, x.1 :: (rdAux rest seen).2)
    else
      (x :: (rdAux rest (x.2 :: seen)).1, (rdAux rest (x.2 :: seen)).2)

/-- AlignmentProcessor.remove_duplicate_sequences: keep the first occurrence of
each distinct sequence value, return the kept records and the removed names. -/
def remove_duplicate_sequences (sequences : List (String × String)) :
    List (String × String) × List String :=
  rdAux sequences []

theorem rdAux_spec (l : List (String × String)) :
    ∀ seen : List String,
      ((rdAux l seen).1.map Prod.snd).Nodup
      ∧ (rdAux l seen).1.Sublist l
      ∧ (∀ x ∈ (rdAux l seen).1, x.2 ∉ seen)
      ∧ (∀ x ∈ (rdAux l seen).1, ∃ pre post, l = pre ++ x :: post ∧ ∀ p ∈ pre, p.2 ≠ x.2)
      ∧ (rdAux l seen).2.Sublist (l.map Prod.fst)
      ∧ ((rdAux l seen).1.map Prod.fst ++ (rdAux l seen).2).Perm (l.map Prod.fst) := by
  induction l with
  | nil =>
    intro seen
    refine ⟨List.nodup_nil, List.Sublist.refl _, ?_, ?_, List.Sublist.refl _, List.Perm.refl _⟩
    · intro x hx; exact absurd hx (List.not_mem_nil x)
    · intro x hx; exact absurd hx (List.not_mem_nil x)
  | cons x rest ih =>
    intro seen
    have hstep : rdAux (x :: rest) seen
        = if x.2 ∈ seen then ((rdAux rest seen).1, x.1 :: (rdAux rest seen).2)
          else (x :: (rdAux rest (x.2 :: seen)).1, (rdAux rest (x.2 :: seen)).2) := rfl
    by_cases hx : x.2 ∈ seen
    · obtain ⟨n1, s1, notIn1, first1, sub2, perm1⟩ := ih seen
      have hr : rdAux (x :: rest) seen
          = ((rdAux rest seen).1, x.1 :: (rdAux rest seen).2) := by
        rw [hstep, if_pos hx]
      rw [hr]
      refine ⟨n1, s1.cons x, notIn1, ?_, ?_, ?_⟩
      · intro y hy
        obtain ⟨pre, post, hsplit, hpre⟩ := first1 y hy
        refine ⟨x :: pre, post, by rw [hsplit, List.cons_append], ?_⟩
        intro p hp
        rcases List.mem_cons.mp hp with hpx | hpp
        · rw [hpx]
          intro hcontra
          exact notIn1 y hy (hcontra ▸ hx)
        · exact hpre p hpp
      · exact List.Sublist.cons₂ x.1 sub2
      · rw [List.map_cons]
        exact List.Perm.trans List.perm_middle (perm1.cons x.1)
    · obtain ⟨n1, s1, notIn1, first1, sub2, perm1⟩ := ih (x.2 :: seen)
      have hr : rdAux (x :: rest) seen
          = (x :: (rdAux rest (x.2 :: seen)).1, (rdAux rest (x.2 :: seen)).2) := by
        rw [hstep, if_neg hx]
      rw [hr]
      refine ⟨?_, List.Sublist.cons₂ x s1, ?_, ?_, sub2.cons x.1, ?_⟩
      · rw [List.map_cons]
        refine List.Nodup.cons ?_ n1
        intro hmem
        obtain ⟨y, hy, hyx⟩ := List.mem_map.mp hmem
        exact (notIn1 y hy) (hyx ▸ List.mem_cons_self x.2 seen)
      · intro y hy
        rcases List.mem_cons.mp hy with hyx | hyr
        · rw [hyx]; exact hx
        · exact fun hmem => notIn1 y hyr (List.mem_cons_of_mem x.2 hmem)
      · intro y hy
        rcases List.mem_cons.mp hy with hyx | hyr
        · refine ⟨[], rest, by rw [hyx, List.nil_append], ?_⟩
          intro p hp
          exact absurd hp (List.not_mem_nil p)
        · obtain ⟨pre, post, hsplit, hpre⟩ := first1 y hyr
          refine ⟨x :: pre, post, by rw [hsplit, List.cons_append], ?_⟩
          intro p hp
          rcases List.mem_cons.mp hp with hpx | hpp
          · rw [hpx]
            intro hcontra
            exact notIn1 y hyr (hcontra ▸ List.mem_cons_self x.2 seen)
          · exact hpre p hpp
      · rw [List.map_cons, List.map_cons, List.cons_append]
        exact perm1.cons x.1

/-- Claim C4: the deduplicator keeps no two records with equal sequence strings,
keeps records in the order of their first occurrence in the input, and the kept
names together with the removed names are exactly the names of the input. -/
theorem remove_duplicates_spec (R : List (String × String)) :
    ((remove_duplicate_sequences R).1.map Prod.snd).Nodup
    ∧ (remove_duplicate_sequences R).1.Sublist R
    ∧ (∀ x ∈ (remove_duplicate_sequences R).1,
        ∃ pre post, R = pre ++ x :: post ∧ ∀ p ∈ pre, p.2 ≠ x.2)
    ∧ (remove_duplicate_sequences R).2.Sublist (R.map Prod.fst)
    ∧ ((remove_duplicate_sequences R).1.map Prod.fst
        ++ (remove_duplicate_sequences R).2).Perm (R.map Prod.fst) := by
  obtain ⟨n1, s1, _, first1, sub2, perm1⟩ := rdAux_spec R []
  exact ⟨n1, s1, first1, sub2, perm1⟩

/-- Claim C4 witness. -/
theorem remove_duplicates_spec_witness :
    (((remove_duplicate_sequences [("a", "X"), ("b", "X")]).1.map Prod.fst)
      ++ (remove_duplicate_sequences [("a", "X"), ("b", "X")]).2).Perm
      (([("a", "X"), ("b", "X")] : List (String × String)).map Prod.fst) :=
  (remove_duplicates_spec [("a", "X"), ("b", "X")]).2.2.2.2

/-! ## PHYLIP serializer (AlignmentProcessor.write_phylip) -/

/-- Python str.ljust: pad the string with spaces on the right up to the width. -/
def ljust (s : String) (w : Nat) : String :=
  s ++ String.mk (List.replicate (w - s.length) ' ')

/-- The maximum name length of a record set (Python max over the names;
0 for the empty set, which the source never reaches). -/
def maxNameLen (sequences : List (String × String)) : Nat :=
  (sequences.map (fun r => r.1.length)).foldl Nat.max 0

/-- The two failure modes of write_phylip.  The length-mismatch failure carries
the distinct sequence lengths the source reports. -/
inductive WriteError where
  | noSequences : WriteError
  | lengthMismatch : List Nat → WriteError
deriving DecidableEq

/-- AlignmentProcessor.write_phylip: validate, then produce the header line and
one line per record.  An error result models the early return of the source, in
which nothing is written (the output file is neither created nor modified). -/
def write_phylip (sequences : List (String × String)) (alignNames : Bool) :
    Except WriteError (List String) :=
  if sequences.isEmpty then Except.error WriteError.noSequences
  else if 1 < ((sequences.map (fun r => r.2.length)).dedup).length then
    Except.error (WriteError.lengthMismatch ((sequences.map (fun r => r.2.length)).dedup))
  else
    Except.ok ((toString sequences.length ++ " " ++ toString (sequences.headD ("", "")).2.length) ::
      sequences.map (fun r =>
        (if alignNames then ljust r.1 (maxNameLen sequences + 2) else r.1 ++ " ") ++ r.2))

theorem dedup_of_constant {L : Nat} (l : List Nat) (hne : l ≠ [])
    (h : ∀ x ∈ l, x = L) : l.dedup = [L] := by
  induction l with
  | nil => exact absurd rfl hne
  | cons a rest ih =>
    have ha : a = L := h a (List.mem_cons_self a rest)
    by_cases hr : rest = []
    · rw [hr, ha]
      rfl
    · have hrest : ∀ x ∈ rest, x = L := fun x hx => h x (List.mem_cons_of_mem a hx)
      have hmem : a ∈ rest := by
        obtain ⟨b, rest', hb⟩ := List.exists_cons_of_ne_nil hr
        rw [hb]
        have : b = L := hrest b (hb ▸ List.mem_cons_self b rest')
        rw [ha, this]
        exact List.mem_cons_self L rest'
      rw [List.dedup_cons_of_mem hmem]
      exact ih hr hrest

/-- Claim C2: on a non-empty record set of uniform sequence length L, the
serializer succeeds with a header line of the record count and L, followed by
one line per record in insertion order: the name left-justified to width
maxNameLen + 2 followed immediately by the sequence when name alignment is
enabled, or the name plus one trailing space plus the sequence when disabled. -/
theorem write_phylip_uniform (records : List (String × String)) (an : Bool) (L : Nat)
    (hne : records ≠ []) (hlen : ∀ r ∈ records, r.2.length = L) :
    write_phylip records an = Except.ok
      ((toString records.length ++ " " ++ toString L) ::
        records.map (fun r =>
          (if an then ljust r.1 (maxNameLen records + 2) else r.1 ++ " ") ++ r.2)) := by
  obtain ⟨r0, rs, hrec⟩ := List.exists_cons_of_ne_nil hne
  have hded : (records.map (fun r => r.2.length)).dedup = [L] := by
    apply dedup_of_constant
    · rw [hrec]
      simp
    · intro x hx
      obtain ⟨r, hr, hrx⟩ := List.mem_map.mp hx
      rw [← hrx]
      exact hlen r hr
  have hempty : records.isEmpty = false := by
    rw [hrec]
    exact List.isEmpty_cons
  have hhead : (records.headD ("", "")).2.length = L := by
    rw [hrec]
    exact hlen r0 (hrec ▸ List.mem_cons_self r0 rs)
  unfold write_phylip
  rw [hempty, hded, hhead]
  simp

/-- Claim C2 witness. -/
theorem write_phylip_uniform_witness :
    write_phylip [("a", "AT"), ("bb", "GC")] true
      = Except.ok ["2 2", "a   AT", "bb  GC"] :=
  (write_phylip_uniform [("a", "AT"), ("bb", "GC")] true 2 (by decide) (by decide)).trans rfl

/-- Claim C3: on a record set containing two records of different sequence
lengths, the serializer fails with the set of distinct lengths (a duplicate-free
list holding exactly the lengths occurring in the records) and produces no
output lines. -/
theorem write_phylip_mismatch (records : List (String × String)) (an : Bool)
    (h : ∃ r₁ ∈ records, ∃ r₂ ∈ records, r₁.2.length ≠ r₂.2.length) :
    ∃ ls : List Nat,
      write_phylip records an = Except.error (WriteError.lengthMismatch ls)
      ∧ ls.Nodup
      ∧ (∀ n, n ∈ ls ↔ ∃ r ∈ records, r.2.length = n) := by
  obtain ⟨r₁, hr₁, r₂, hr₂, hne⟩ := h
  have hempty : records.isEmpty = false := by
    cases records with
    | nil => exact absurd hr₁ (List.not_mem_nil r₁)
    | cons a l => exact List.isEmpty_cons
  have hm₁ : r₁.2.length ∈ (records.map (fun r => r.2.length)).dedup :=
    List.mem_dedup.mpr (List.mem_map.mpr ⟨r₁, hr₁, rfl⟩)
  have hm₂ : r₂.2.length ∈ (records.map (fun r => r.2.length)).dedup :=
    List.mem_dedup.mpr (List.mem_map.mpr ⟨r₂, hr₂, rfl⟩)
  have hlong : 1 < ((records.map (fun r => r.2.length)).dedup).length := by
    by_contra hle
    push_neg at hle
    interval_cases hl : ((records.map (fun r => r.2.length)).dedup).length
    · rw [List.length_eq_zero] at hl
      rw [hl] at hm₁
      exact absurd hm₁ (List.not_mem_nil _)
    · obtain ⟨a, ha⟩ := List.length_eq_one.mp hl
      rw [ha] at hm₁ hm₂
      exact hne ((List.mem_singleton.mp hm₁).trans (List.mem_singleton.mp hm₂).symm)
  refine ⟨(records.map (fun r => r.2.length)).dedup, ?_, List.nodup_dedup _, ?_⟩
  · unfold write_phylip
    rw [hempty]
    simp only [Bool.false_eq_true, if_false, if_pos hlong]
  · intro n
    rw [List.mem_dedup, List.mem_map]

/-- Claim C3 witness. -/
theorem write_phylip_mismatch_witness :
    ∃ ls : List Nat,
      write_phylip [("a", "A"), ("b", "GG")] false
        = Except.error (WriteError.lengthMismatch ls)
      ∧ ls.Nodup
      ∧ (∀ n, n ∈ ls ↔ ∃ r ∈ ([("a", "A"), ("b", "GG")] : List (String × String)),
          r.2.length = n) :=
  write_phylip_mismatch [("a", "A"), ("b", "GG")] false (by decide)

/-! ## Sequence-type classifier (AlignmentProcessor._classify_sequences) -/

/-- Amino-acid letters that never appear in IUPAC nucleotide codes. -/
def protein_exclusive : List Char := ['E', 'F', 'I', 'J', 'L', 'O', 'P', 'Q', 'Z']

/-- Standard DNA/RNA bases. -/
def dna_bases : List Char := ['A', 'T', 'G', 'C', 'U']

/-- Gap and unknown symbols excluded from the character pool. -/
def gapChars : List Char := ['-', '.', '*', '?', 'X']

/-- The character pool of _classify_sequences: characters of the first
min(5, n) sequences, upper-cased, with gaps and unknowns dropped, in
comprehension order (sequence by sequence). -/
def classifyChars (sequences : List String) : List Char :=
  ((sequences.take (min 5 sequences.length)).map
    (fun seq => (seq.data.map Char.toUpper).filter (fun c => !(gapChars.contains c)))).flatten

/-- The count of DNA-base characters in the pool. -/
def dnaCount (chars : List Char) : Nat :=
  chars.countP (fun c => dna_bases.contains c)

/-- The decision chain of _classify_sequences on an already-built pool.  The
float ratio of the source is modelled by the exact rational
dnaCount chars / chars.length. -/
def classifyFrom (chars : List Char) : String :=
  if chars.isEmpty then "protein"
  else if ∃ c ∈ chars.dedup, c ∈ protein_exclusive then "protein"
  else if 10 < chars.dedup.length then "protein"
  else if chars.dedup.length ≤ 4 then "dna"
  else if (9 : ℚ) / 10 < (dnaCount chars : ℚ) / (chars.length : ℚ)
      ∧ chars.dedup.length ≤ 7 then "dna"
  else if (dnaCount chars : ℚ) / (chars.length : ℚ) < (8 : ℚ) / 10 then "protein"
  else if chars.dedup.length ≤ 6
      ∧ (85 : ℚ) / 100 < (dnaCount chars : ℚ) / (chars.length : ℚ) then "dna"
  else "protein"

/-- AlignmentProcessor._classify_sequences. -/
def classify_sequences (sequences : List String) : String :=
  classifyFrom (classifyChars sequences)

/-- The character pool as the claim words it: concatenate the first min(5, n)
sequences, upper-case, discard the five excluded characters. -/
def specPool (sequences : List String) : List Char :=
  ((pyConcat (sequences.take (min 5 sequences.length))).data.map Char.toUpper).filter
    (fun c => !(gapChars.contains c))

/-- The decision chain exactly as the claim states it, with the ratio
thresholds expressed by integer cross-multiplication. -/
def specDecide (pool : List Char) : String :=
  if pool = [] then "protein"
  else if ∃ c ∈ pool, c ∈ protein_exclusive then "protein"
  else if 10 < pool.dedup.length then "protein"
  else if pool.dedup.length ≤ 4 then "dna"
  else if 9 * pool.length < 10 * dnaCount pool ∧ pool.dedup.length ≤ 7 then "dna"
  else if 10 * dnaCount pool < 8 * pool.length then "protein"
  else if pool.dedup.length ≤ 6 ∧ 85 * pool.length < 100 * dnaCount pool then "dna"
  else "protein"

/-- The classification rule of claim C1, assembled from the claim wording. -/
def classifySpec (sequences : List String) : String :=
  specDecide (specPool sequences)

theorem pyConcat_data (L : List String) :
    (pyConcat L).data = (L.map String.data).flatten := by
  suffices h : ∀ a : String,
      (L.foldl (fun x s => x ++ s) a).data = a.data ++ (L.map String.data).flatten by
    simpa using h ""
  induction L with
  | nil => intro a; simp
  | cons s rest ih =>
    intro a
    rw [List.foldl_cons, ih (a ++ s), String.data_append]
    simp [List.append_assoc]

theorem pool_eq (sequences : List String) : classifyChars sequences = specPool sequences := by
  unfold classifyChars specPool
  rw [pyConcat_data, List.map_flatten, List.filter_flatten, List.map_map, List.map_map]
  rfl

theorem cond_gt90 (d n : Nat) (hn : 0 < n) :
    ((9 : ℚ) / 10 < (d : ℚ) / (n : ℚ)) ↔ 9 * n < 10 * d := by
  rw [div_lt_div_iff₀ (by norm_num) (by exact_mod_cast hn)]
  constructor
  · intro h
    have h9 : ((9 * n : ℕ) : ℚ) < ((10 * d : ℕ) : ℚ) := by push_cast; linarith
    exact_mod_cast h9
  · intro h
    have h9 : ((9 * n : ℕ) : ℚ) < ((10 * d : ℕ) : ℚ) := by exact_mod_cast h
    push_cast at h9
    linarith

theorem cond_lt80 (d n : Nat) (hn : 0 < n) :
    ((d : ℚ) / (n : ℚ) < (8 : ℚ) / 10) ↔ 10 * d < 8 * n := by
  rw [div_lt_div_iff₀ (by exact_mod_cast hn) (by norm_num)]
  constructor
  · intro h
    have h8 : ((10 * d : ℕ) : ℚ) < ((8 * n : ℕ) : ℚ) := by push_cast; linarith
    exact_mod_cast h8
  · intro h
    have h8 : ((10 * d : ℕ) : ℚ) < ((8 * n : ℕ) : ℚ) := by exact_mod_cast h
    push_cast at h8
    linarith

theorem cond_gt85 (d n : Nat) (hn : 0 < n) :
    ((85 : ℚ) / 100 < (d : ℚ) / (n : ℚ)) ↔ 85 * n < 100 * d := by
  rw [div_lt_div_iff₀ (by norm_num) (by exact_mod_cast hn)]
  constructor
  · intro h
    have h85 : ((85 * n : ℕ) : ℚ) < ((100 * d : ℕ) : ℚ) := by push_cast; linarith
    exact_mod_cast h85
  · intro h
    have h85 : ((85 * n : ℕ) : ℚ) < ((100 * d : ℕ) : ℚ) := by exact_mod_cast h
    push_cast at h85
    linarith

theorem classifyFrom_eq_specDecide (chars : List Char) :
    classifyFrom chars = specDecide chars := by
  by_cases hE : chars = []
  · rw [hE]; rfl
  · have hn : 0 < chars.length := List.length_pos.mpr hE
    have hpe : (∃ c ∈ chars.dedup, c ∈ protein_exclusive)
        ↔ (∃ c ∈ chars, c ∈ protein_exclusive) := by
      constructor
      · rintro ⟨c, hc, hp⟩
        exact ⟨c, List.mem_dedup.mp hc, hp⟩
      · rintro ⟨c, hc, hp⟩
        exact ⟨c, List.mem_dedup.mpr hc, hp⟩
    have h4 := cond_gt90 (dnaCount chars) chars.length hn
    have h5 := cond_lt80 (dnaCount chars) chars.length hn
    have h6 := cond_gt85 (dnaCount chars) chars.length hn
    unfold classifyFrom specDecide
    rw [if_neg (show ¬chars.isEmpty = true from by rw [List.isEmpty_iff]; exact hE),
        if_neg hE]
    exact if_congr hpe rfl (if_congr Iff.rfl rfl (if_congr Iff.rfl rfl
      (if_congr (and_congr h4 Iff.rfl) rfl (if_congr h5 rfl
        (if_congr (and_congr Iff.rfl h6) rfl rfl)))))

/-- The classifier always answers one of the two labels. -/
theorem classifyFrom_cases (chars : List Char) :
    classifyFrom chars = "dna" ∨ classifyFrom chars = "protein" := by
  unfold classifyFrom
  split_ifs <;> simp

/-- Claim C1: _classify_sequences builds its pool from the first min(5, n)
sequences by upper-casing and discarding gap and unknown characters, answers
protein on an empty pool, and otherwise follows exactly the ordered chain of
the claim: protein-exclusive letters, then diversity over 10, then diversity
at most 4, then ratio over 0.90 with diversity at most 7, then ratio below
0.80, then diversity at most 6 with ratio over 0.85, else protein. -/
theorem classify_sequences_matches_claim (sequences : List String) :
    classify_sequences sequences = classifySpec sequences := by
  unfold classify_sequences classifySpec
  rw [pool_eq]
  exact classifyFrom_eq_specDecide _

/-! ## NEXUS parser (AlignmentProcessor.parse_nexus) and format dispatch -/

/-- Scan for the first case-insensitive occurrence of the literal MATRIX and
return the characters after it (the regex search for the MATRIX keyword). -/
def dropToMatrix : List Char → Option (List Char)
  | [] => none
  | l@(_ :: rest) =>
    if (l.take 6).map Char.toUpper = "MATRIX".data then some (l.drop 6)
    else dropToMatrix rest

/-- The capture group of the regex MATRIX then whitespace then a lazy capture
up to the next semicolon: skip whitespace after the keyword, then take up to
the first semicolon; fail when no semicolon follows. -/
def nexusMatrixContent (content : String) : Option String :=
  match dropToMatrix content.data with
  | none => none
  | some rest =>
    let afterWs := rest.dropWhile Char.isWhitespace
    if afterWs.contains ';' then
      some (String.mk (afterWs.takeWhile (fun c => c != ';')))
    else none

/-- AlignmentProcessor.parse_nexus: find the MATRIX block, then for each line
with at least two whitespace-separated tokens join all but the last with
underscores as the sanitized name and keep the last as the sequence. -/
def parse_nexus (content : String) : Except String (List (String × String)) :=
  match nexusMatrixContent content with
  | none => Except.error "No MATRIX block found in NEXUS file"
  | some mc =>
    Except.ok ((pySplitLines (pyStrip mc)).foldl
      (fun seqs line =>
        let parts := pySplit (pyStrip line)
        if 2 ≤ parts.length then
          odInsert seqs (cleanName (pyJoin "_" parts.dropLast)) (parts.getLastD "")
        else seqs)
      [])

/-- The content sniff of process_file: the trimmed content, upper-cased, starts
with the literal token of a NEXUS file. -/
def isNexusContent (content : String) : Bool :=
  pyStartsWith (pyUpper (pyStrip content)) "#NEXUS"

/-- Helper for the log line listing removed duplicates. -/
def dupLog (removed : List String) : String :=
  if removed.isEmpty then "  No duplicate sequences found\n"
  else "  Removed " ++ toString removed.length ++ " duplicate sequence(s):\n"
    ++ pyConcat (removed.map (fun e => "    - " ++ e ++ "\n"))

/-- The error strings of write_phylip as the source formats them. -/
def writeErrorMsg : WriteError → String
  | WriteError.noSequences => "No sequences to write"
  | WriteError.lengthMismatch ls => "Sequences have different lengths: " ++ toString ls

/-- The tail of process_file after the format dispatch: check for an empty
parse, optionally deduplicate, serialize, and build the log message. -/
def process_file_rest (parsed : Except String (List (String × String)))
    (fileType inName outName : String) (removeDups alignNames : Bool) : Bool × String :=
  match parsed with
  | Except.error e => (false, "Error parsing " ++ inName ++ ": " ++ e)
  | Except.ok sequences =>
    if sequences.isEmpty then (false, "No sequences found in " ++ inName)
    else
      let dedupResult :=
        if removeDups then remove_duplicate_sequences sequences else (sequences, [])
      match write_phylip dedupResult.1 alignNames with
      | Except.error err => (false, "Error writing " ++ outName ++ ": " ++ writeErrorMsg err)
      | Except.ok _ =>
        (true, "Processing " ++ inName ++ " (" ++ fileType ++ "):\n"
          ++ dupLog dedupResult.2
          ++ "  Converted " ++ toString dedupResult.1.length
          ++ " sequence(s) to PHYLIP: " ++ outName ++ "\n")

/-- AlignmentProcessor.process_file.  The read of the input file is modelled by
an Except value; the parser choice is decided by the content sniff only. -/
def process_file (inName outName : String) (readResult : Except String String)
    (removeDups alignNames : Bool) : Bool × String :=
  match readResult with
  | Except.error e => (false, "Error reading " ++ inName ++ ": " ++ e)
  | Except.ok content =>
    if isNexusContent content then
      process_file_rest (parse_nexus content) "NEXUS" inName outName removeDups alignNames
    else
      process_file_rest (Except.ok (parse_fasta content)) "FASTA" inName outName
        removeDups alignNames

/-- The success flag of process_file does not depend on the file names. -/
theorem process_file_rest_success_indep
    (parsed : Except String (List (String × String)))
    (fileType n₁ o₁ n₂ o₂ : String) (rd an : Bool) :
    (process_file_rest parsed fileType n₁ o₁ rd an).1
      = (process_file_rest parsed fileType n₂ o₂ rd an).1 := by
  unfold process_file_rest
  cases parsed with
  | error e => rfl
  | ok sequences =>
    by_cases hs : sequences.isEmpty
    · simp only [hs, if_pos]
    · simp only [hs, Bool.false_eq_true, if_false, if_neg]
      cases hw : write_phylip
          (if rd then remove_duplicate_sequences sequences else (sequences, [])).1 an with
      | error err => rfl
      | ok lines => rfl

/-- Claim C6: the parser dispatch of process_file is decided solely by the file
content: when the trimmed content begins, case-insensitively, with the literal
token of NEXUS, the NEXUS parser runs, otherwise the FASTA parser runs; the
sniff is exactly a case-insensitive prefix test on the trimmed content, and the
success of processing is independent of the file names (in particular of any
file extension). -/
theorem process_file_dispatch (inName₁ inName₂ outName content : String) (rd an : Bool) :
    (isNexusContent content = true →
      process_file inName₁ outName (Except.ok content) rd an
        = process_file_rest (parse_nexus content) "NEXUS" inName₁ outName rd an)
    ∧ (isNexusContent content = false →
      process_file inName₁ outName (Except.ok content) rd an
        = process_file_rest (Except.ok (parse_fasta content)) "FASTA" inName₁ outName rd an)
    ∧ (isNexusContent content = true
        ↔ ((pyStrip content).data.take 6).map Char.toUpper = "#NEXUS".data)
    ∧ (process_file inName₁ outName (Except.ok content) rd an).1
        = (process_file inName₂ outName (Except.ok content) rd an).1 := by
  have hred : ∀ n : String, process_file n outName (Except.ok content) rd an
      = if isNexusContent content = true
        then process_file_rest (parse_nexus content) "NEXUS" n outName rd an
        else process_file_rest (Except.ok (parse_fasta content)) "FASTA" n outName rd an :=
    fun n => rfl
  refine ⟨?_, ?_, ?_, ?_⟩
  · intro h
    rw [hred, if_pos h]
  · intro h
    rw [hred, h]
    simp
  · unfold isNexusContent pyStartsWith pyUpper
    rw [List.isPrefixOf_iff_prefix, List.prefix_iff_eq_take]
    show String.data "#NEXUS" = _ ↔ _
    rw [show (String.data "#NEXUS").length = 6 from rfl, ← List.map_take]
    constructor
    · intro h
      exact h.symm
    · intro h
      exact h.symm
  · rw [hred inName₁, hred inName₂]
    by_cases h : isNexusContent content = true
    · rw [if_pos h, if_pos h]
      exact process_file_rest_success_indep _ _ _ _ _ _ _ _
    · rw [if_neg h, if_neg h]
      exact process_file_rest_success_indep _ _ _ _ _ _ _ _

/-- Claim C6 witness: content not starting with the NEXUS token is parsed as
FASTA whatever the file name. -/
theorem process_file_dispatch_witness :
    process_file "a.nex" "out" (Except.ok ">x\nAT") true true
      = process_file_rest (Except.ok (parse_fasta ">x\nAT")) "FASTA" "a.nex" "out" true true :=
  (process_file_dispatch "a.nex" "b.fa" "out" ">x\nAT" true true).2.1 (by decide)

/-! ## Sequence-type routing (AlignmentProcessor.get_sequence_type) -/

/-- Filename hints checked first for protein. -/
def proteinHints : List String := ["protein", "aa", "prot"]

/-- Filename hints checked second for dna. -/
def dnaHints : List String := ["dna", "nucleotide", "cds"]

/-- Any protein hint occurs, case-insensitively, in the file name. -/
def hasProteinHint (fileName : String) : Bool :=
  proteinHints.any (fun h => isSubstring h.data (fileName.data.map Char.toLower))

/-- Any dna hint occurs, case-insensitively, in the file name. -/
def hasDnaHint (fileName : String) : Bool :=
  dnaHints.any (fun h => isSubstring h.data (fileName.data.map Char.toLower))

/-- One line of the FASTA branch of _extract_sequences: flush the accumulator
at a header when it is non-empty, append stripped non-empty lines. -/
def extractStep (st : List String × List String) (rawLine : String) :
    List String × List String :=
  let line := pyStrip rawLine
  if pyStartsWith line ">" then
    if st.2.isEmpty then (st.1, []) else (st.1 ++ [pyConcat st.2], [])
  else if line == "" then st
  else (st.1, st.2 ++ [line])

/-- The FASTA branch of _extract_sequences. -/
def fastaExtract (lines : List String) : List String :=
  ((lines.foldl extractStep ([], [])).1)
    ++ (if (lines.foldl extractStep ([], [])).2.isEmpty then []
        else [pyConcat (lines.foldl extractStep ([], [])).2])

/-- AlignmentProcessor._extract_sequences, with the file read modelled by an
Except value: a read failure propagates as an error (the exception), a NEXUS
file without a MATRIX block yields an empty list. -/
def extract_sequences (readResult : Except String String) : Except String (List String) :=
  match readResult with
  | Except.error e => Except.error e
  | Except.ok content =>
    if isNexusContent content then
      match nexusMatrixContent content with
      | none => Except.ok []
      | some mc =>
        Except.ok ((pySplitLines (pyStrip mc)).foldr
          (fun line acc =>
            let parts := pySplit (pyStrip line)
            if 2 ≤ parts.length then parts.getLastD "" :: acc else acc)
          [])
    else Except.ok (fastaExtract (pySplitLines content))

/-- The content-analysis part of get_sequence_type: any exception during
extraction is swallowed and the default protein is kept; an empty extraction
also keeps the default. -/
def contentVerdict (readResult : Except String String) : String :=
  match extract_sequences readResult with
  | Except.error _ => "protein"
  | Except.ok seqs => if seqs.isEmpty then "protein" else classify_sequences seqs

/-- AlignmentProcessor.get_sequence_type: filename hints first (protein before
dna), then content analysis with the protein default. -/
def get_sequence_type (fileName : String) (readResult : Except String String) : String :=
  if hasProteinHint fileName then "protein"
  else if hasDnaHint fileName then "dna"
  else contentVerdict readResult

theorem contentVerdict_cases (r : Except String String) :
    contentVerdict r = "dna" ∨ contentVerdict r = "protein" := by
  unfold contentVerdict
  cases extract_sequences r with
  | error e => exact Or.inr rfl
  | ok seqs =>
    by_cases hs : seqs.isEmpty = true
    · refine Or.inr ?_
      show (if seqs.isEmpty = true then "protein" else classify_sequences seqs) = "protein"
      rw [if_pos hs]
    · rcases classifyFrom_cases (classifyChars seqs) with h | h
      · refine Or.inl ?_
        show (if seqs.isEmpty = true then "protein" else classify_sequences seqs) = "dna"
        rw [if_neg hs]
        exact h
      · refine Or.inr ?_
        show (if seqs.isEmpty = true then "protein" else classify_sequences seqs) = "protein"
        rw [if_neg hs]
        exact h

/-- Claim C9: get_sequence_type never fails: on a file whose read raises, the
exception is swallowed and the default protein verdict is returned (when no
filename hint applies), the verdict is always one of the two labels, and the
same unreadable file nevertheless fails in process_file. -/
theorem get_sequence_type_error_default (fileName e outName : String)
    (r : Except String String) (rd an : Bool) :
    (hasProteinHint fileName = false → hasDnaHint fileName = false →
      get_sequence_type fileName (Except.error e) = "protein")
    ∧ (get_sequence_type fileName r = "dna" ∨ get_sequence_type fileName r = "protein")
    ∧ (process_file fileName outName (Except.error e) rd an).1 = false := by
  refine ⟨?_, ?_, rfl⟩
  · intro hp hd
    unfold get_sequence_type
    rw [hp, hd]
    simp only [Bool.false_eq_true, if_false]
    rfl
  · unfold get_sequence_type
    by_cases hp : hasProteinHint fileName = true
    · rw [if_pos hp]
      exact Or.inr rfl
    · rw [if_neg hp]
      by_cases hd : hasDnaHint fileName = true
      · rw [if_pos hd]
        exact Or.inl rfl
      · rw [if_neg hd]
        exact contentVerdict_cases r

/-- Claim C9 witness: an unreadable hint-free file is still routed to protein. -/
theorem get_sequence_type_error_default_witness :
    get_sequence_type "m1.fas" (Except.error "boom") = "protein" :=
  (get_sequence_type_error_default "m1.fas" "boom" "out" (Except.error "boom") true true).1
    (by decide) (by decide)

/-- Claim C10: filename hints are case-insensitive substring tests, the protein
hints are tested before the dna hints, so a filename containing hints from both
sets is routed to protein; and any hint match short-circuits content analysis:
the verdict does not depend on the file content at all. -/
theorem get_sequence_type_hints (fileName : String) (r₁ r₂ : Except String String) :
    (hasProteinHint fileName = true → get_sequence_type fileName r₁ = "protein")
    ∧ (hasProteinHint fileName = false → hasDnaHint fileName = true →
        get_sequence_type fileName r₁ = "dna")
    ∧ (hasProteinHint fileName = true ∨ hasDnaHint fileName = true →
        get_sequence_type fileName r₁ = get_sequence_type fileName r₂)
    ∧ (hasProteinHint fileName = true ∧ hasDnaHint fileName = true →
        get_sequence_type fileName r₁ = "protein") := by
  refine ⟨?_, ?_, ?_, ?_⟩
  · intro hp
    unfold get_sequence_type
    rw [if_pos hp]
  · intro hp hd
    unfold get_sequence_type
    rw [hp, if_pos hd]
    simp
  · intro h
    unfold get_sequence_type
    rcases h with hp | hd
    · rw [if_pos hp, if_pos hp]
    · by_cases hp : hasProteinHint fileName = true
      · rw [if_pos hp, if_pos hp]
      · rw [if_neg hp, if_neg hp, if_pos hd, if_pos hd]
  · rintro ⟨hp, _⟩
    unfold get_sequence_type
    rw [if_pos hp]

/-- Claim C10 witness: a filename with hints from both sets is routed to
protein, whatever the content. -/
theorem get_sequence_type_hints_witness :
    get_sequence_type "dna_prot.fa" (Except.ok "zzz") = "protein" :=
  (get_sequence_type_hints "dna_prot.fa" (Except.ok "zzz") (Except.error "e")).2.2.2
    ⟨by decide, by decide⟩

/-! ## Directory orchestrator (AlignmentProcessor.process_directory and main) -/

/-- AlignmentProcessor.process_directory: process every discovered file in
sorted order, tallying successes and failures; a failed file never aborts the
loop.  A file is modelled by its name and the result of reading it. -/
def process_directory (files : List (String × Except String String)) (rd an : Bool) :
    Nat × Nat :=
  (files.mergeSort (fun a b => decide (a.1 ≤ b.1))).foldl
    (fun acc f =>
      if (process_file f.1 f.1 f.2 rd an).1 then (acc.1 + 1, acc.2) else (acc.1, acc.2 + 1))
    (0, 0)

/-- The exit status of main: 0 exactly when no file failed. -/
def main_exit (files : List (String × Except String String)) (rd an : Bool) : Nat :=
  if (process_directory files rd an).2 = 0 then 0 else 1

theorem foldl_tally {α : Type} (p : α → Bool) (l : List α) :
    ∀ a b : Nat,
      l.foldl (fun acc f => if p f then (acc.1 + 1, acc.2) else (acc.1, acc.2 + 1)) (a, b)
        = (a + l.countP p, b + l.countP (fun f => !(p f))) := by
  induction l with
  | nil => intro a b; simp
  | cons x rest ih =>
    intro a b
    rw [List.foldl_cons]
    by_cases hx : p x = true
    · rw [if_pos hx]
      show rest.foldl _ (a + 1, b) = _
      rw [ih (a + 1) b, List.countP_cons, List.countP_cons]
      simp [hx]
      omega
    · rw [if_neg hx]
      show rest.foldl _ (a, b + 1) = _
      rw [ih a (b + 1), List.countP_cons, List.countP_cons]
      simp [hx]
      omega

/-- Claim C7: every discovered file is processed and tallied exactly once (a
per-file failure does not abort the run), the two counters are the counts of
succeeding and failing files, they sum to the number of files, and the exit
status of main is 0 exactly when no file failed. -/
theorem process_directory_spec (files : List (String × Except String String))
    (rd an : Bool) :
    (process_directory files rd an).1
        = files.countP (fun f => (process_file f.1 f.1 f.2 rd an).1)
    ∧ (process_directory files rd an).2
        = files.countP (fun f => !(process_file f.1 f.1 f.2 rd an).1)
    ∧ (process_directory files rd an).1 + (process_directory files rd an).2 = files.length
    ∧ (main_exit files rd an = 0
        ↔ ∀ f ∈ files, (process_file f.1 f.1 f.2 rd an).1 = true) := by
  have hperm : (files.mergeSort (fun a b => decide (a.1 ≤ b.1))).Perm files :=
    List.mergeSort_perm files _
  have h1 : (process_directory files rd an).1
      = files.countP (fun f => (process_file f.1 f.1 f.2 rd an).1) := by
    unfold process_directory
    rw [foldl_tally]
    simp only [Nat.zero_add]
    exact hperm.countP_eq _
  have h2 : (process_directory files rd an).2
      = files.countP (fun f => !(process_file f.1 f.1 f.2 rd an).1) := by
    unfold process_directory
    rw [foldl_tally]
    simp only [Nat.zero_add]
    exact hperm.countP_eq _
  refine ⟨h1, h2, ?_, ?_⟩
  · rw [h1, h2]
    have hlen := List.length_eq_countP_add_countP
      (fun f => (process_file f.1 f.1 f.2 rd an).1) files
    have hconv : files.countP
          (fun a => decide ¬((process_file a.1 a.1 a.2 rd an).1 = true))
        = files.countP (fun f => !(process_file f.1 f.1 f.2 rd an).1) := by
      apply List.countP_congr
      intro a _
      simp
    rw [hconv] at hlen
    omega
  · unfold main_exit
    rw [h2]
    constructor
    · intro h f hf
      by_cases hz : files.countP (fun f => !(process_file f.1 f.1 f.2 rd an).1) = 0
      · have := List.countP_eq_zero.mp hz f hf
        simpa using this
      · rw [if_neg hz] at h
        exact absurd h one_ne_zero
    · intro h
      have hC : files.countP (fun f => !(process_file f.1 f.1 f.2 rd an).1) = 0 := by
        rw [List.countP_eq_zero]
        intro f hf
        simp [h f hf]
      rw [if_pos hC]

/-- Claim C7 witness: a single failing file is tallied, and both counters
account for the whole run. -/
theorem process_directory_spec_witness :
    (process_directory [("a.fa", Except.error "x")] true true).1
        + (process_directory [("a.fa", Except.error "x")] true true).2
      = ([("a.fa", Except.error "x")] : List (String × Except String String)).length :=
  (process_directory_spec [("a.fa", Except.error "x")] true true).2.2.1

end ProcessAlignments
